import Mathlib

/-!
Verification development for the trainer-bookkeeping app (`src/app.py`).

The file shallowly embeds the app's core logic in Lean:
* the name normalizer `normalize_client` (Python `" ".join(raw.split()).title()`),
* the session store and payment ledger operations over an explicit state,
* the aggregation engine (`sessions_agg_by_client_month`, `join_with_payments`)
  and the per-client history view,
* money formatting `fmt_money` (Python `f"${x:,.0f}".replace(",", ".")`).

Strings are modelled as Lean `String` (lists of characters); the Python
character-class and case functions are modelled over code points via
`Char.toNat`, which agrees with Python on the ASCII range the app's data uses.
Timestamps are modelled as explicit date-time records; the app serializes them
as zero-padded `"YYYY-MM-DD HH:MM:SS"` text whose lexicographic order, for
four-digit years, is exactly the numeric order of the `tsKey` encoding used
here.  Monetary amounts are modelled as rationals.

All definitions come first, then all theorems.
-/

/-! ### Definitions: character utilities (Python semantics on the ASCII range) -/

/-- Whitespace test used by Python `str.split()` (ASCII range: space, tab,
line feed, carriage return). -/
def wsCh (c : Char) : Bool :=
  decide (c.toNat = 32 ∨ c.toNat = 9 ∨ c.toNat = 10 ∨ c.toNat = 13)

/-- A cased (letter) character in the ASCII range. -/
def casedCh (c : Char) : Bool :=
  decide ((65 ≤ c.toNat ∧ c.toNat ≤ 90) ∨ (97 ≤ c.toNat ∧ c.toNat ≤ 122))

/-- ASCII uppercasing, as Python `str.upper` on one character. -/
def upCh (c : Char) : Char :=
  if 97 ≤ c.toNat ∧ c.toNat ≤ 122 then Char.ofNat (c.toNat - 32) else c

/-- ASCII lowercasing, as Python `str.lower` on one character. -/
def lowCh (c : Char) : Char :=
  if 65 ≤ c.toNat ∧ c.toNat ≤ 90 then Char.ofNat (c.toNat + 32) else c

/-! ### Definitions: splitting on whitespace runs, joining, Python title-casing -/

/-- Helper for `splitWs`: `acc` holds the (reversed) current token. -/
def splitWsAux : List Char → List Char → List (List Char)
  | [], acc => if acc.isEmpty then [] else [acc.reverse]
  | c :: cs, acc =>
    if wsCh c then
      if acc.isEmpty then splitWsAux cs [] else acc.reverse :: splitWsAux cs []
    else splitWsAux cs (c :: acc)

/-- Python `str.split()` with no arguments: maximal runs of non-whitespace
characters, with empty tokens dropped. -/
def splitWs (l : List Char) : List (List Char) := splitWsAux l []

/-- Join a list of tokens with a single separator character between
consecutive tokens, as Python `sep.join(tokens)`. -/
def joinCh (sep : Char) : List (List Char) → List Char
  | [] => []
  | [t] => t
  | t :: u :: ts => t ++ sep :: joinCh sep (u :: ts)

/-- Python `str.title()` scan: `prev` records whether the previous original
character was cased.  A cased character is uppercased when the previous
character was not cased, and lowercased otherwise; uncased characters pass
through unchanged. -/
def pyTitleAux : List Char → Bool → List Char
  | [], _ => []
  | c :: cs, prev =>
    (if casedCh c then (if prev then lowCh c else upCh c) else c) :: pyTitleAux cs (casedCh c)

/-- Python `str.title()` on a list of characters. -/
def pyTitleL (l : List Char) : List Char := pyTitleAux l false

/-- `normalize_client` from `src/app.py`:
`if not raw: return ""` then `" ".join(raw.split()).title()`. -/
def normalize_client (raw : String) : String :=
  if raw = "" then "" else ⟨pyTitleL (joinCh ' ' (splitWs raw.data))⟩

/-- Modelled from the spec (claim C4's reference definition): split on any
whitespace run, rejoin with single spaces, then capitalize each
whitespace-delimited token by uppercasing its first character and lowercasing
the rest, with no capitalization triggered by interior non-letter characters. -/
def capToken : List Char → List Char
  | [] => []
  | c :: cs => upCh c :: cs.map lowCh

/-- Modelled from the spec: the claimed reference normalizer built from
`capToken` (see C4). -/
def normCapSpec (raw : String) : String :=
  ⟨joinCh ' ' ((splitWs raw.data).map capToken)⟩

/-- Modelled from the spec as amended: like `normCapSpec` but each token is
title-cased Python-style, so a cased letter is uppercased whenever it follows
a non-cased character (hyphen, apostrophe, digit) or starts the token. -/
def normTitleSpec (raw : String) : String :=
  ⟨joinCh ' ' ((splitWs raw.data).map pyTitleL)⟩

/-- The title-scan state after processing `xs` starting from `p`. -/
def endSt (xs : List Char) (p : Bool) : Bool := xs.foldl (fun _ c => casedCh c) p

/-- Adjacent characters are never both spaces. -/
def noSpacePair (a b : Char) : Prop := ¬(a = ' ' ∧ b = ' ')

/-! ### Definitions: a small sorting kernel (stable insertion sort on a Bool comparator) -/

/-- Insert `x` into `l` before the first element `y` with `le x y`. -/
def insLe {α : Type} (le : α → α → Bool) (x : α) : List α → List α
  | [] => [x]
  | y :: ys => if le x y then x :: y :: ys else y :: insLe le x ys

/-- Stable insertion sort by a Bool comparator (models the dataframe sorts). -/
def sortLe {α : Type} (le : α → α → Bool) : List α → List α
  | [] => []
  | x :: xs => insLe le x (sortLe le xs)

/-! ### Definitions: code-point lexicographic string order (Python string comparison) -/

/-- Strict code-point lexicographic order on character lists, as Python
compares strings. -/
def lexLt : List Char → List Char → Bool
  | [], [] => false
  | [], _ :: _ => true
  | _ :: _, [] => false
  | a :: as, b :: bs =>
    if a.toNat < b.toNat then true
    else if b.toNat < a.toNat then false
    else lexLt as bs

/-- Non-strict string comparison used by the modelled dataframe sorts. -/
def leStr (a b : String) : Bool := !(lexLt b.data a.data)

/-! ### Definitions: data model (timestamps, sessions, payment ledger, app state) -/

/-- A naive local date-time, as the app's `datetime` values. -/
structure DT where
  year : Nat
  month : Nat
  day : Nat
  hour : Nat
  minute : Nat
  second : Nat
deriving DecidableEq

/-- Numeric encoding of a date-time.  The app stores timestamps as the
zero-padded text `"YYYY-MM-DD HH:MM:SS"` and the backend compares that text
lexicographically; for in-range fields and four-digit years that order is
exactly the numeric order of this key. -/
def tsKey (t : DT) : Nat :=
  ((((t.year * 100 + t.month) * 100 + t.day) * 100 + t.hour) * 100 + t.minute) * 100 + t.second

/-- Calendar-valid field ranges for a date-time. -/
def validDT (t : DT) : Prop :=
  1 ≤ t.month ∧ t.month ≤ 12 ∧ 1 ≤ t.day ∧ t.day ≤ 31 ∧
    t.hour ≤ 23 ∧ t.minute ≤ 59 ∧ t.second ≤ 59

/-- `month_range` from `src/app.py`: first instant of the month, and first
instant of the next month (December rolls over to January of `year + 1`). -/
def month_range (year month : Nat) : DT × DT :=
  (⟨year, month, 1, 0, 0, 0⟩,
   ⟨year + (if month = 12 then 1 else 0), if month = 12 then 1 else month + 1, 1, 0, 0, 0⟩)

/-- A calendar date (for the ledger's `paid_on`). -/
structure PDate where
  year : Nat
  month : Nat
  day : Nat
deriving DecidableEq

def pad2 (n : Nat) : String := if n < 10 then "0" ++ Nat.repr n else Nat.repr n

def pad4 (n : Nat) : String :=
  if n < 10 then "000" ++ Nat.repr n
  else if n < 100 then "00" ++ Nat.repr n
  else if n < 1000 then "0" ++ Nat.repr n
  else Nat.repr n

/-- Python `date.isoformat()`. -/
def isoDate (d : PDate) : String := pad4 d.year ++ "-" ++ pad2 d.month ++ "-" ++ pad2 d.day

/-- A row of the `sessions` table. -/
structure Session where
  id : Nat
  client : String
  ts : DT
  amount : ℚ
deriving DecidableEq

/-- A row of the `monthly_payments` table (`paid_on` is the stored ISO text,
`none` for SQL NULL). -/
structure PayRow where
  client : String
  year : Nat
  month : Nat
  paid : Bool
  paid_on : Option String
deriving DecidableEq

/-- The backend state: both tables plus the id sequence for `sessions`. -/
structure DB where
  sessions : List Session
  payments : List PayRow
  nextId : Nat
deriving DecidableEq

/-! ### Definitions: session store operations (`src/app.py` data layer) -/

/-- `add_session`: normalizes the client and inserts the row.  The source
performs no validation of the amount or of the normalized name. -/
def add_session (db : DB) (client : String) (ts : DT) (amount : ℚ) : DB :=
  { db with
    sessions := db.sessions ++
      [{ id := db.nextId, client := normalize_client client, ts := ts, amount := amount }],
    nextId := db.nextId + 1 }

/-- `delete_session`: delete every `sessions` row with the given id. -/
def delete_session (db : DB) (row_id : Nat) : DB :=
  { db with sessions := db.sessions.filter (fun s => decide (s.id ≠ row_id)) }

/-- The dataframe post-processing of a fetched session row: the `client`
column is re-normalized. -/
def normSess (s : Session) : Session := { s with client := normalize_client s.client }

def leTs (s t : Session) : Bool := decide (tsKey s.ts ≤ tsKey t.ts)

/-- `fetch_sessions_between`: rows with `start ≤ ts` (gte) and `ts < end`
(lt), ordered ascending by timestamp, clients re-normalized. -/
def fetch_sessions_between (db : DB) (a b : DT) : List Session :=
  (sortLe leTs (db.sessions.filter
    (fun s => decide (tsKey a ≤ tsKey s.ts) && decide (tsKey s.ts < tsKey b)))).map normSess

/-- Result shape of `get_monthly_payment`: `paid` is the 0/1 flag the code
returns, `paid_on` the stored ISO date text if any. -/
structure PayStatus where
  paid : Nat
  paid_on : Option String
deriving DecidableEq

/-! ### Definitions: payment ledger operations -/

/-- Equality test on the ledger's natural key `(client, year, month)`. -/
def payPred (c : String) (y m : Nat) (p : PayRow) : Bool :=
  decide (p.client = c ∧ p.year = y ∧ p.month = m)

/-- `get_monthly_payment`: point lookup by normalized client, year, month;
an absent row reads as unpaid with no date. -/
def get_monthly_payment (db : DB) (client : String) (year month : Nat) : PayStatus :=
  match db.payments.find? (payPred (normalize_client client) year month) with
  | none => { paid := 0, paid_on := none }
  | some row => { paid := if row.paid then 1 else 0, paid_on := row.paid_on }

/-- Upsert on the natural key `(client, year, month)`: replace the
conflicting row if present, else append. -/
def upsertPay (rows : List PayRow) (r : PayRow) : List PayRow :=
  if rows.any (payPred r.client r.year r.month) then
    rows.map (fun p => if payPred r.client r.year r.month p then r else p)
  else rows ++ [r]

/-- `set_monthly_payment`: the stored `paid_on` is
`paid_on.isoformat() if (paid and paid_on) else None`. -/
def set_monthly_payment (db : DB) (client : String) (year month : Nat)
    (paid : Bool) (paid_on : Option PDate) : DB :=
  { db with
    payments := upsertPay db.payments
      ({ client := normalize_client client, year := year, month := month, paid := paid,
         paid_on := match paid, paid_on with
           | true, some d => some (isoDate d)
           | _, _ => none }) }

/-! ### Definitions: aggregation engine -/

/-- Sum of a list of rationals (the dataframe `sum` aggregate). -/
def sumQ : List ℚ → ℚ
  | [] => 0
  | [x] => x
  | x :: y :: xs => x + sumQ (y :: xs)

/-- One row of the `sessions_agg_by_client_month` result
(`Cliente`, `Año`, `Mes`, `Clases`, `Monto`). -/
structure AggRow where
  cliente : String
  anio : Nat
  mes : Nat
  clases : Nat
  monto : ℚ
deriving DecidableEq

def ltStr (a b : String) : Bool := lexLt a.data b.data

/-- Ascending order on `(Cliente, Año, Mes)` group keys, as the dataframe
group-by and `sort_values` order them. -/
def keyLe (a b : String × Nat × Nat) : Bool :=
  if a.1 = b.1 then
    (if a.2.1 = b.2.1 then decide (a.2.2 ≤ b.2.2) else decide (a.2.1 < b.2.1))
  else ltStr a.1 b.1

/-- The working dataframe of `sessions_agg_by_client_month`: one
`(normalized client, timestamp, amount)` row per session, optionally
filtered to one normalized client. -/
def aggRowsSrc (db : DB) (cliente : Option String) : List (String × DT × ℚ) :=
  let rows0 : List (String × DT × ℚ) :=
    db.sessions.map (fun s => (normalize_client s.client, s.ts, s.amount))
  match cliente with
  | some c => rows0.filter (fun r => decide (r.1 = normalize_client c))
  | none => rows0

/-- The `(client, year, month)` group key of a working row. -/
def rowKey (r : String × DT × ℚ) : String × Nat × Nat := (r.1, r.2.1.year, r.2.1.month)

/-- The distinct group keys (the group-by index). -/
def aggKeys (db : DB) (cliente : Option String) : List (String × Nat × Nat) :=
  ((aggRowsSrc db cliente).map rowKey).dedup

/-- The aggregate row of one group: count of rows and sum of amounts. -/
def mkAggRow (rows : List (String × DT × ℚ)) (k : String × Nat × Nat) : AggRow :=
  { cliente := k.1, anio := k.2.1, mes := k.2.2,
    clases := (rows.filter (fun r => decide (rowKey r = k))).length,
    monto := sumQ ((rows.filter (fun r => decide (rowKey r = k))).map (fun r => r.2.2)) }

/-- `sessions_agg_by_client_month`: normalize clients, optionally filter to
one normalized client, group by `(client, year, month)` with count and sum,
sorted ascending by the group key. -/
def sessions_agg_by_client_month (db : DB) (cliente : Option String) : List AggRow :=
  (sortLe keyLe (aggKeys db cliente)).map (mkAggRow (aggRowsSrc db cliente))

/-- One row of the merged history view, before display formatting
(`Estado mes` and `Fecha pago mes` already filled). -/
structure JoinedRow where
  cliente : String
  anio : Nat
  mes : Nat
  clases : Nat
  monto : ℚ
  estado : String
  fechaPago : String
deriving DecidableEq

/-- An aggregate row with no ledger match: `paid` fills to 0 (`Pendiente`)
and the paid-on column shows the em-dash placeholder. -/
def pendRow (a : AggRow) : JoinedRow :=
  ⟨a.cliente, a.anio, a.mes, a.clases, a.monto, "Pendiente", "—"⟩

/-- An aggregate row merged with a ledger row. -/
def paidRow (a : AggRow) (p : PayRow) : JoinedRow :=
  ⟨a.cliente, a.anio, a.mes, a.clases, a.monto,
    if p.paid then "Pagado" else "Pendiente", p.paid_on.getD "—"⟩

/-- The merge predicate of `pd.merge(agg, pays, on=[Cliente, Año, Mes])`
after the ledger's client column has been normalized. -/
def payMatch (a : AggRow) (p : PayRow) : Bool :=
  decide (normalize_client p.client = a.cliente ∧ p.year = a.anio ∧ p.month = a.mes)

/-- `join_with_payments`: left-merge of the aggregate rows with the ledger;
rows without a match fill as pending, matched rows read status and date from
the ledger row. -/
def join_with_payments (db : DB) (agg : List AggRow) : List JoinedRow :=
  if agg.isEmpty then []
  else if db.payments.isEmpty then agg.map pendRow
  else
    agg.flatMap (fun a =>
      match db.payments.filter (payMatch a) with
      | [] => [pendRow a]
      | ps => ps.map (paidRow a))

/-- The history pipeline for one client (`hist = join_with_payments(agg_cli)`). -/
def histJoined (db : DB) (c : String) : List JoinedRow :=
  join_with_payments db (sessions_agg_by_client_month db (some c))

/-! ### Definitions: history display view -/

def MESES_ES : List String :=
  ["Enero", "Febrero", "Marzo", "Abril", "Mayo", "Junio",
   "Julio", "Agosto", "Septiembre", "Octubre", "Noviembre", "Diciembre"]

/-- `month_label_es`: the localized label `f"{MESES_ES[m-1]} {y}"`. -/
def month_label_es (y m : Nat) : String :=
  (MESES_ES.getD (m - 1) "") ++ " " ++ Nat.repr y

/-! ### Definitions: money formatting -/

def digitChar (n : Nat) : Char := "0123456789".data.getD n '0'

def natDigitsAux : Nat → Nat → List Char
  | 0, _ => []
  | fuel + 1, n =>
    if n < 10 then [digitChar n] else natDigitsAux fuel (n / 10) ++ [digitChar (n % 10)]

/-- Decimal digits of a natural number, most significant first. -/
def natDigits (n : Nat) : List Char := natDigitsAux (n + 1) n

/-- Chunks of three, for thousands grouping from the least significant end. -/
def chunk3 : List Char → List (List Char)
  | a :: b :: c :: d :: rest => [a, b, c] :: chunk3 (d :: rest)
  | l => [l]

/-- Thousands grouping with `,`, as Python `f"{n:,}"` groups an integer. -/
def commaGroup (ds : List Char) : List Char :=
  (joinCh ',' (chunk3 ds.reverse)).reverse

/-- Python `f"{n:,d}"` on an integer. -/
def intComma (n : ℤ) : String :=
  (if n < 0 then "-" else "") ++ ⟨commaGroup (natDigits n.natAbs)⟩

/-- Python `str.replace(",", ".")` (single-character pattern). -/
def replaceCommaDot (s : String) : String :=
  ⟨s.data.map (fun c => if c = ',' then '.' else c)⟩

/-- Round half to even, as Python float formatting with `.0f` rounds:
`q` is the floor, `r` the nonnegative remainder, and ties pick the even
neighbour. -/
def rhe (x : ℚ) : ℤ :=
  let q : ℤ := Int.fdiv x.num (x.den : ℤ)
  let r : ℤ := x.num - q * (x.den : ℤ)
  if (x.den : ℤ) < 2 * r then q + 1
  else if 2 * r < (x.den : ℤ) then q
  else if q % 2 = 0 then q else q + 1

/-- `fmt_money` from `src/app.py`: `f"${x:,.0f}".replace(",", ".")`. -/
def fmt_money (x : ℚ) : String := replaceCommaDot ("$" ++ intComma (rhe x))

/-- One row of the displayed history table
(`Mes (texto)`, `Clases`, `Monto`, `Estado mes`, `Fecha pago mes`). -/
structure HistRow where
  mesTexto : String
  clases : Nat
  monto : String
  estado : String
  fechaPago : String
deriving DecidableEq

def leHist (a b : HistRow) : Bool := leStr a.mesTexto b.mesTexto

/-- The displayed per-client history (`src/app.py` lines 452-455): label each
merged row with the localized month text, format the amount, then
`sort_values(["Mes (texto)"])` — the sort key is the label text. -/
def hist_view (db : DB) (c : String) : List HistRow :=
  sortLe leHist ((histJoined db c).map (fun r =>
    { mesTexto := month_label_es r.anio r.mes, clases := r.clases,
      monto := fmt_money r.monto, estado := r.estado, fechaPago := r.fechaPago }))

/-! ### Definitions: concrete states for counterexamples, evaluations and witnesses -/

/-- The empty backend state. -/
def dbEmpty : DB := { sessions := [], payments := [], nextId := 0 }

def tsMarch : DT := ⟨2025, 3, 1, 9, 0, 0⟩

/-- Two sessions of the same client, one in January 2025 and one in
April 2025. -/
def dbC1 : DB :=
  { sessions :=
      [ { id := 1, client := "Ana", ts := ⟨2025, 1, 10, 9, 0, 0⟩, amount := 30000 },
        { id := 2, client := "Ana", ts := ⟨2025, 4, 5, 10, 0, 0⟩, amount := 30000 } ],
    payments := [], nextId := 3 }

/-- The ledger's natural key after client normalization. -/
def payKey (p : PayRow) : String × Nat × Nat := (normalize_client p.client, p.year, p.month)

/-- The single output row the left-merge produces for one aggregate row when
the ledger's keys are unambiguous. -/
def joinOne (db : DB) (a : AggRow) : JoinedRow :=
  match db.payments.filter (payMatch a) with
  | [] => pendRow a
  | p :: _ => paidRow a p

/-- One session and one matching ledger row. -/
def dbC2 : DB :=
  { sessions := [{ id := 1, client := "Ana", ts := ⟨2025, 1, 10, 9, 0, 0⟩, amount := 30000 }],
    payments := [{ client := "Ana", year := 2025, month := 1, paid := true,
                   paid_on := some "2025-01-20" }],
    nextId := 2 }

def sessC6 : Session := { id := 1, client := "Ana", ts := ⟨2025, 3, 1, 0, 0, 0⟩, amount := 30000 }

def dbC6 : DB := { sessions := [sessC6], payments := [], nextId := 2 }

/-! ### Character-level lemmas -/

theorem charEq_of_toNat {a b : Char} (h : a.toNat = b.toNat) : a = b :=
  Char.ext (UInt32.toNat.inj h)

theorem toNat_ofNat_valid (n : Nat) (h : n.isValidChar) : (Char.ofNat n).toNat = n := by
  rw [Char.ofNat, dif_pos h]
  rfl

theorem toNat_upCh (c : Char) :
    (upCh c).toNat = if 97 ≤ c.toNat ∧ c.toNat ≤ 122 then c.toNat - 32 else c.toNat := by
  unfold upCh
  split
  · next h => exact toNat_ofNat_valid _ (Or.inl (by omega))
  · rfl

theorem toNat_lowCh (c : Char) :
    (lowCh c).toNat = if 65 ≤ c.toNat ∧ c.toNat ≤ 90 then c.toNat + 32 else c.toNat := by
  unfold lowCh
  split
  · next h => exact toNat_ofNat_valid _ (Or.inl (by omega))
  · rfl

theorem casedCh_upCh (c : Char) : casedCh (upCh c) = casedCh c := by
  simp only [casedCh, toNat_upCh]
  exact decide_eq_decide.mpr (by split <;> omega)

theorem casedCh_lowCh (c : Char) : casedCh (lowCh c) = casedCh c := by
  simp only [casedCh, toNat_lowCh]
  exact decide_eq_decide.mpr (by split <;> omega)

theorem wsCh_upCh (c : Char) : wsCh (upCh c) = wsCh c := by
  simp only [wsCh, toNat_upCh]
  exact decide_eq_decide.mpr (by split <;> omega)

theorem wsCh_lowCh (c : Char) : wsCh (lowCh c) = wsCh c := by
  simp only [wsCh, toNat_lowCh]
  exact decide_eq_decide.mpr (by split <;> omega)

theorem upCh_upCh (c : Char) : upCh (upCh c) = upCh c := by
  apply charEq_of_toNat
  simp only [toNat_upCh]
  split_ifs <;> omega

theorem lowCh_lowCh (c : Char) : lowCh (lowCh c) = lowCh c := by
  apply charEq_of_toNat
  simp only [toNat_lowCh]
  split_ifs <;> omega

theorem wsCh_space : wsCh ' ' = true := by decide

theorem casedCh_space : casedCh ' ' = false := by decide

/-! ### Structure lemmas for split, join and title-casing -/

theorem length_pyTitleAux (l : List Char) (p : Bool) : (pyTitleAux l p).length = l.length := by
  induction l generalizing p with
  | nil => rfl
  | cons c cs ih => simp [pyTitleAux, ih]

theorem pyTitleAux_wsFree {l : List Char} (h : ∀ c ∈ l, wsCh c = false) (p : Bool) :
    ∀ c ∈ pyTitleAux l p, wsCh c = false := by
  induction l generalizing p with
  | nil => simp [pyTitleAux]
  | cons c cs ih =>
    intro d hd
    simp only [pyTitleAux, List.mem_cons] at hd
    rcases hd with hd | hd
    · subst hd
      have hc := h c (List.mem_cons_self c cs)
      split
      · split
        · rw [wsCh_lowCh]; exact hc
        · rw [wsCh_upCh]; exact hc
      · exact hc
    · exact ih (fun x hx => h x (List.mem_cons_of_mem c hx)) _ d hd

/-- Tokens produced by `splitWsAux` are nonempty and whitespace-free. -/
theorem splitWsAux_tokens :
    ∀ (l acc : List Char), (∀ c ∈ acc, wsCh c = false) →
      ∀ t ∈ splitWsAux l acc, t ≠ [] ∧ ∀ c ∈ t, wsCh c = false := by
  intro l
  induction l with
  | nil =>
    intro acc hacc t ht
    simp only [splitWsAux] at ht
    split at ht
    · simp at ht
    · next hne =>
      simp only [List.mem_singleton] at ht
      subst ht
      refine ⟨fun h => hne (by simpa [List.isEmpty_iff] using congrArg List.reverse h), ?_⟩
      intro c hc
      exact hacc c (by simpa using hc)
  | cons c cs ih =>
    intro acc hacc t ht
    simp only [splitWsAux] at ht
    split at ht
    · split at ht
      · exact ih [] (by simp) t ht
      · next hne =>
        rcases List.mem_cons.mp ht with h | h
        · subst h
          refine ⟨fun h => hne (by simpa [List.isEmpty_iff] using congrArg List.reverse h), ?_⟩
          intro d hd
          exact hacc d (by simpa using hd)
        · exact ih [] (by simp) t h
    · next hcw =>
      refine ih (c :: acc) ?_ t ht
      intro d hd
      rcases List.mem_cons.mp hd with h | h
      · subst h; exact Bool.of_not_eq_true hcw
      · exact hacc d h

theorem splitWs_tokens {l : List Char} :
    ∀ t ∈ splitWs l, t ≠ [] ∧ ∀ c ∈ t, wsCh c = false :=
  splitWsAux_tokens l [] (by simp)

/-- Scanning a whitespace-free token just accumulates it. -/
theorem splitWsAux_token (t : List Char) (h : ∀ c ∈ t, wsCh c = false) :
    ∀ (l acc : List Char), splitWsAux (t ++ l) acc = splitWsAux l (t.reverse ++ acc) := by
  induction t with
  | nil => intro l acc; simp
  | cons c t' ih =>
    intro l acc
    have hc : wsCh c = false := h c (List.mem_cons_self c t')
    have step : splitWsAux ((c :: t') ++ l) acc = splitWsAux (t' ++ l) (c :: acc) := by
      simp [splitWsAux, hc]
    rw [step, ih (fun d hd => h d (List.mem_cons_of_mem c hd)) l (c :: acc)]
    simp

/-- Splitting is a left inverse of joining nonempty whitespace-free tokens. -/
theorem splitWs_joinCh (ts : List (List Char))
    (h : ∀ t ∈ ts, t ≠ [] ∧ ∀ c ∈ t, wsCh c = false) :
    splitWs (joinCh ' ' ts) = ts := by
  induction ts with
  | nil => rfl
  | cons t ts ih =>
    rcases h t (List.mem_cons_self t ts) with ⟨htne, htws⟩
    cases ts with
    | nil =>
      show splitWsAux t [] = [t]
      have h0 := splitWsAux_token t htws [] []
      rw [List.append_nil, List.append_nil] at h0
      rw [h0]
      simp only [splitWsAux]
      rw [if_neg (by simpa [List.isEmpty_iff, List.reverse_eq_nil_iff] using htne)]
      simp
    | cons u ts' =>
      show splitWsAux (t ++ ' ' :: joinCh ' ' (u :: ts')) [] = t :: u :: ts'
      rw [splitWsAux_token t htws _ []]
      simp only [splitWsAux, wsCh_space, if_true, List.append_nil]
      rw [if_neg (by simpa [List.isEmpty_iff, List.reverse_eq_nil_iff] using htne)]
      simp only [List.reverse_reverse]
      exact congrArg (fun x => t :: x) (ih (fun x hx => h x (List.mem_cons_of_mem t hx)))

theorem pyTitleAux_append (xs ys : List Char) (p : Bool) :
    pyTitleAux (xs ++ ys) p = pyTitleAux xs p ++ pyTitleAux ys (endSt xs p) := by
  induction xs generalizing p with
  | nil => rfl
  | cons c cs ih => simp [pyTitleAux, endSt, ih, List.foldl_cons]

/-- Title-casing distributes over a single-space join. -/
theorem pyTitleAux_joinCh (ts : List (List Char)) :
    pyTitleAux (joinCh ' ' ts) false = joinCh ' ' (ts.map pyTitleL) := by
  induction ts with
  | nil => rfl
  | cons t ts ih =>
    cases ts with
    | nil => rfl
    | cons u ts' =>
      show pyTitleAux (t ++ ' ' :: joinCh ' ' (u :: ts')) false =
        pyTitleL t ++ ' ' :: joinCh ' ' ((u :: ts').map pyTitleL)
      rw [pyTitleAux_append]
      simp only [pyTitleAux, casedCh_space, Bool.false_eq_true, if_false]
      rw [ih]
      rfl

/-- One pass of the title scan is idempotent (from any starting state). -/
theorem pyTitleAux_idem (l : List Char) (p : Bool) :
    pyTitleAux (pyTitleAux l p) p = pyTitleAux l p := by
  induction l generalizing p with
  | nil => rfl
  | cons c cs ih =>
    by_cases hc : casedCh c = true
    · cases p with
      | false =>
        have h1 : casedCh (upCh c) = true := by rw [casedCh_upCh]; exact hc
        simp [pyTitleAux, hc, h1, upCh_upCh, ih true]
      | true =>
        have h1 : casedCh (lowCh c) = true := by rw [casedCh_lowCh]; exact hc
        simp [pyTitleAux, hc, h1, lowCh_lowCh, ih true]
    · have hc' : casedCh c = false := Bool.of_not_eq_true hc
      simp [pyTitleAux, hc', ih false]

theorem ne_space_of_wsFree {c : Char} (h : wsCh c = false) : c ≠ ' ' := by
  intro hc
  subst hc
  rw [wsCh_space] at h
  cases h

theorem mem_of_getLastQ {l : List Char} {a : Char} (h : a ∈ l.getLast?) : a ∈ l := by
  rcases List.mem_getLast?_eq_getLast h with ⟨hne, rfl⟩
  exact List.getLast_mem hne

theorem chain'_of_no_space {l : List Char} (h : ∀ c ∈ l, c ≠ ' ') :
    List.Chain' noSpacePair l := by
  induction l with
  | nil => simp
  | cons a l ih =>
    cases l with
    | nil => exact List.chain'_singleton a
    | cons b l' =>
      refine List.chain'_cons.mpr ⟨?_, ih ?_⟩
      · exact fun hab => h a (List.mem_cons_self a _) hab.1
      · intro c hc
        exact h c (List.mem_cons_of_mem a hc)

theorem joinCh_ne_nil {ts : List (List Char)} (hne : ts ≠ [])
    (h : ∀ t ∈ ts, t ≠ []) : joinCh ' ' ts ≠ [] := by
  cases ts with
  | nil => exact absurd rfl hne
  | cons t ts' =>
    cases ts' with
    | nil => exact h t (List.mem_cons_self t _)
    | cons u ts'' =>
      show t ++ ' ' :: joinCh ' ' (u :: ts'') ≠ []
      simp

theorem joinCh_head_ne_space {ts : List (List Char)}
    (h : ∀ t ∈ ts, t ≠ [] ∧ ∀ c ∈ t, c ≠ ' ') :
    (joinCh ' ' ts).head? ≠ some ' ' := by
  cases ts with
  | nil => simp [joinCh]
  | cons t ts' =>
    rcases h t (List.mem_cons_self t _) with ⟨htne, htsp⟩
    obtain ⟨c, t', rfl⟩ := List.exists_cons_of_ne_nil htne
    have hc : c ≠ ' ' := htsp c (List.mem_cons_self c t')
    cases ts' with
    | nil =>
      intro hh
      exact hc (by simpa [joinCh] using hh)
    | cons u ts'' =>
      intro hh
      exact hc (by simpa [joinCh] using hh)

theorem joinCh_getLast_ne_space {ts : List (List Char)}
    (h : ∀ t ∈ ts, t ≠ [] ∧ ∀ c ∈ t, c ≠ ' ') :
    (joinCh ' ' ts).getLast? ≠ some ' ' := by
  induction ts with
  | nil => simp [joinCh]
  | cons t ts' ih =>
    rcases h t (List.mem_cons_self t _) with ⟨htne, htsp⟩
    cases ts' with
    | nil =>
      show t.getLast? ≠ some ' '
      intro hh
      exact htsp ' ' (mem_of_getLastQ hh) rfl
    | cons u ts'' =>
      show (t ++ ' ' :: joinCh ' ' (u :: ts'')).getLast? ≠ some ' '
      have hrec := ih (fun x hx => h x (List.mem_cons_of_mem t hx))
      have hjne : joinCh ' ' (u :: ts'') ≠ [] :=
        joinCh_ne_nil (by simp) (fun x hx => (h x (List.mem_cons_of_mem t hx)).1)
      obtain ⟨c0, j', hj⟩ := List.exists_cons_of_ne_nil hjne
      rw [List.getLast?_append, hj, List.getLast?_cons_cons]
      cases hgl : (c0 :: j').getLast? with
      | none => simp at hgl
      | some x =>
        have hx : x ≠ ' ' := by
          intro hx
          subst hx
          exact hrec (by rw [hj, hgl])
        intro hh
        exact hx (by simpa [Option.or] using hh)

theorem joinCh_chain {ts : List (List Char)}
    (h : ∀ t ∈ ts, t ≠ [] ∧ ∀ c ∈ t, c ≠ ' ') :
    List.Chain' noSpacePair (joinCh ' ' ts) := by
  induction ts with
  | nil => simp [joinCh]
  | cons t ts' ih =>
    rcases h t (List.mem_cons_self t _) with ⟨htne, htsp⟩
    cases ts' with
    | nil => exact chain'_of_no_space htsp
    | cons u ts'' =>
      show List.Chain' noSpacePair (t ++ ' ' :: joinCh ' ' (u :: ts''))
      have hrest := ih (fun x hx => h x (List.mem_cons_of_mem t hx))
      have hhead := joinCh_head_ne_space (fun x hx => h x (List.mem_cons_of_mem t hx))
      refine List.chain'_append.mpr ⟨chain'_of_no_space htsp, ?_, ?_⟩
      · refine List.chain'_cons'.mpr ⟨?_, hrest⟩
        intro y hy hcon
        rw [hcon.2] at hy
        exact hhead (Option.mem_def.mp hy)
      · intro x hx y hy hcon
        exact htsp x (mem_of_getLastQ hx) hcon.1

/-- Tokens of a split, retitled: still nonempty and whitespace-free. -/
theorem splitWs_map_pyTitle_tokens (l : List Char) :
    ∀ t ∈ (splitWs l).map pyTitleL, t ≠ [] ∧ ∀ c ∈ t, wsCh c = false := by
  intro t ht
  rcases List.mem_map.mp ht with ⟨t0, ht0, rfl⟩
  rcases splitWs_tokens t0 ht0 with ⟨ht0ne, ht0ws⟩
  constructor
  · intro hh
    have hlen : (pyTitleL t0).length = t0.length := length_pyTitleAux t0 false
    rw [hh] at hlen
    exact ht0ne (List.length_eq_zero.mp hlen.symm)
  · exact pyTitleAux_wsFree ht0ws false

theorem pyTitleL_comp : (fun t => pyTitleL (pyTitleL t)) = pyTitleL :=
  funext fun t => pyTitleAux_idem t false

/-- The normalizer in distributed form: title-case each token, then join. -/
theorem normalize_client_eq_join (raw : String) :
    normalize_client raw =
      if raw = "" then "" else ⟨joinCh ' ' ((splitWs raw.data).map pyTitleL)⟩ := by
  unfold normalize_client
  split
  · rfl
  · exact congrArg String.mk (pyTitleAux_joinCh (splitWs raw.data))

/-! ### Sorting lemmas -/

theorem perm_insLe {α : Type} (le : α → α → Bool) (x : α) (l : List α) :
    List.Perm (insLe le x l) (x :: l) := by
  induction l with
  | nil => rfl
  | cons y ys ih =>
    simp only [insLe]
    split
    · rfl
    · exact ((ih.cons y).trans (List.Perm.swap x y ys))

theorem perm_sortLe {α : Type} (le : α → α → Bool) (l : List α) :
    List.Perm (sortLe le l) l := by
  induction l with
  | nil => rfl
  | cons x xs ih => exact (perm_insLe le x (sortLe le xs)).trans (ih.cons x)

theorem mem_sortLe {α : Type} (le : α → α → Bool) (l : List α) (a : α) :
    a ∈ sortLe le l ↔ a ∈ l :=
  (perm_sortLe le l).mem_iff

theorem nodup_sortLe {α : Type} (le : α → α → Bool) {l : List α} (h : l.Nodup) :
    (sortLe le l).Nodup :=
  (perm_sortLe le l).nodup_iff.mpr h

theorem pairwise_insLe {α : Type} (le : α → α → Bool)
    (htot : ∀ a b, le a b = true ∨ le b a = true)
    (htr : ∀ a b c, le a b = true → le b c = true → le a c = true)
    (x : α) {l : List α} (h : List.Pairwise (fun a b => le a b = true) l) :
    List.Pairwise (fun a b => le a b = true) (insLe le x l) := by
  induction l with
  | nil => simp [insLe]
  | cons y ys ih =>
    rcases List.pairwise_cons.mp h with ⟨hy, hys⟩
    simp only [insLe]
    split
    · next hxy =>
      refine List.pairwise_cons.mpr ⟨?_, h⟩
      intro z hz
      rcases List.mem_cons.mp hz with hz | hz
      · subst hz; exact hxy
      · exact htr x y z hxy (hy z hz)
    · next hxy =>
      have hyx : le y x = true := by
        rcases htot x y with h' | h'
        · exact absurd h' hxy
        · exact h'
      refine List.pairwise_cons.mpr ⟨?_, ih hys⟩
      intro z hz
      have hz' : z ∈ x :: ys := (perm_insLe le x ys).mem_iff.mp hz
      rcases List.mem_cons.mp hz' with hz' | hz'
      · subst hz'; exact hyx
      · exact hy z hz'

theorem pairwise_sortLe {α : Type} (le : α → α → Bool)
    (htot : ∀ a b, le a b = true ∨ le b a = true)
    (htr : ∀ a b c, le a b = true → le b c = true → le a c = true)
    (l : List α) :
    List.Pairwise (fun a b => le a b = true) (sortLe le l) := by
  induction l with
  | nil => simp [sortLe]
  | cons x xs ih => exact pairwise_insLe le htot htr x ih

/-! ### String order lemmas -/

theorem lexLt_irrefl (x : List Char) : lexLt x x = false := by
  induction x with
  | nil => rfl
  | cons a as ih => simp [lexLt, ih]

theorem lexLt_asymm : ∀ (x y : List Char), lexLt x y = true → lexLt y x = false := by
  intro x
  induction x with
  | nil =>
    intro y h
    cases y with
    | nil => simp [lexLt] at h
    | cons b bs => rfl
  | cons a as ih =>
    intro y h
    cases y with
    | nil => cases h
    | cons b bs =>
      simp only [lexLt] at h ⊢
      by_cases hab : a.toNat < b.toNat
      · rw [if_neg (by omega), if_pos hab]
      · rw [if_neg hab] at h
        by_cases hba : b.toNat < a.toNat
        · rw [if_pos hba] at h; cases h
        · rw [if_neg hba] at h
          rw [if_neg hba, if_neg hab]
          exact ih bs h

theorem lexLt_trans : ∀ (x y z : List Char),
    lexLt x y = true → lexLt y z = true → lexLt x z = true := by
  intro x
  induction x with
  | nil =>
    intro y z h1 h2
    cases y with
    | nil => cases h1
    | cons b bs =>
      cases z with
      | nil => cases h2
      | cons c cs => rfl
  | cons a as ih =>
    intro y z h1 h2
    cases y with
    | nil => cases h1
    | cons b bs =>
      cases z with
      | nil => cases h2
      | cons c cs =>
        simp only [lexLt] at h1 h2 ⊢
        by_cases hab : a.toNat < b.toNat
        · by_cases hbc : b.toNat < c.toNat
          · rw [if_pos (by omega)]
          · rw [if_neg hbc] at h2
            by_cases hcb : c.toNat < b.toNat
            · rw [if_pos hcb] at h2; cases h2
            · rw [if_pos (by omega)]
        · rw [if_neg hab] at h1
          by_cases hba : b.toNat < a.toNat
          · rw [if_pos hba] at h1; cases h1
          · rw [if_neg hba] at h1
            by_cases hbc : b.toNat < c.toNat
            · rw [if_pos (by omega)]
            · rw [if_neg hbc] at h2
              by_cases hcb : c.toNat < b.toNat
              · rw [if_pos hcb] at h2; cases h2
              · rw [if_neg hcb] at h2
                rw [if_neg (by omega), if_neg (by omega)]
                exact ih bs cs h1 h2

theorem lexLt_connex : ∀ (x y : List Char), x ≠ y →
    lexLt x y = true ∨ lexLt y x = true := by
  intro x
  induction x with
  | nil =>
    intro y h
    cases y with
    | nil => exact absurd rfl h
    | cons b bs => exact Or.inl rfl
  | cons a as ih =>
    intro y h
    cases y with
    | nil => exact Or.inr rfl
    | cons b bs =>
      simp only [lexLt]
      by_cases hab : a.toNat < b.toNat
      · exact Or.inl (by rw [if_pos hab])
      · by_cases hba : b.toNat < a.toNat
        · exact Or.inr (by rw [if_pos hba])
        · have hEq : a = b := charEq_of_toNat (by omega)
          subst hEq
          have hne : as ≠ bs := fun hh => h (by rw [hh])
          rcases ih bs hne with h' | h'
          · exact Or.inl (by rw [if_neg hab, if_neg hab]; exact h')
          · exact Or.inr (by rw [if_neg hab, if_neg hab]; exact h')

theorem leStr_total (a b : String) : leStr a b = true ∨ leStr b a = true := by
  unfold leStr
  by_cases h : lexLt b.data a.data = true
  · right
    rw [lexLt_asymm _ _ h]
    rfl
  · left
    rw [Bool.of_not_eq_true h]
    rfl

theorem lexLt_neg_trans : ∀ (x y z : List Char),
    lexLt y x = false → lexLt z y = false → lexLt z x = false := by
  intro x
  induction x with
  | nil =>
    intro y z h1 h2
    cases y with
    | nil =>
      cases z with
      | nil => rfl
      | cons c cs => exact h2
    | cons b bs =>
      cases z with
      | nil => rfl
      | cons c cs => rfl
  | cons a as ih =>
    intro y z h1 h2
    cases y with
    | nil => cases h1
    | cons b bs =>
      cases z with
      | nil => cases h2
      | cons c cs =>
        simp only [lexLt] at h1 h2 ⊢
        by_cases hba : b.toNat < a.toNat
        · rw [if_pos hba] at h1; cases h1
        · rw [if_neg hba] at h1
          by_cases hcb : c.toNat < b.toNat
          · rw [if_pos hcb] at h2; cases h2
          · rw [if_neg hcb] at h2
            rw [if_neg (by omega)]
            by_cases hac : a.toNat < c.toNat
            · rw [if_pos hac]
            · rw [if_neg hac]
              rw [if_neg (by omega)] at h1
              rw [if_neg (by omega)] at h2
              exact ih bs cs h1 h2

theorem leStr_trans (a b c : String) (h1 : leStr a b = true) (h2 : leStr b c = true) :
    leStr a c = true := by
  unfold leStr at h1 h2 ⊢
  rw [Bool.not_eq_true'] at h1 h2 ⊢
  exact lexLt_neg_trans a.data b.data c.data h1 h2

/-! ### Ledger lemmas -/

theorem payPred_mk (c : String) (y m : Nat) (pd : Bool) (po : Option String) :
    payPred c y m ⟨c, y, m, pd, po⟩ = true :=
  decide_eq_true ⟨rfl, rfl, rfl⟩

theorem find_map_replace (c : String) (y m : Nat) (r : PayRow)
    (hr : payPred c y m r = true) :
    ∀ rows : List PayRow, rows.any (payPred c y m) = true →
      (rows.map (fun p => if payPred c y m p then r else p)).find? (payPred c y m) = some r := by
  intro rows
  induction rows with
  | nil => intro h; cases h
  | cons p ps ih =>
    intro hany
    by_cases hp : payPred c y m p = true
    · rw [List.map_cons, if_pos hp]
      exact List.find?_cons_of_pos _ hr
    · rw [List.map_cons, if_neg hp]
      rw [List.find?_cons_of_neg _ (by simpa using hp)]
      refine ih ?_
      rcases List.any_eq_true.mp hany with ⟨q, hq, hqp⟩
      rcases List.mem_cons.mp hq with hq | hq
      · subst hq; exact absurd hqp hp
      · exact List.any_eq_true.mpr ⟨q, hq, hqp⟩

theorem find_append_single (c : String) (y m : Nat) (r : PayRow)
    (hr : payPred c y m r = true) :
    ∀ rows : List PayRow, rows.any (payPred c y m) = false →
      (rows ++ [r]).find? (payPred c y m) = some r := by
  intro rows
  induction rows with
  | nil =>
    intro _
    exact List.find?_cons_of_pos _ hr
  | cons p ps ih =>
    intro hany
    rw [List.any_cons] at hany
    rw [List.cons_append, List.find?_cons_of_neg _ (by
      intro hp
      rw [hp] at hany
      simp at hany)]
    exact ih (by
      cases hpp : ps.any (payPred c y m) with
      | false => rfl
      | true => rw [hpp] at hany; simp at hany)

/-- Lookup after upsert at the same key returns exactly the upserted row. -/
theorem find_upsert (rows : List PayRow) (c : String) (y m : Nat)
    (pd : Bool) (po : Option String) :
    (upsertPay rows ⟨c, y, m, pd, po⟩).find? (payPred c y m) = some ⟨c, y, m, pd, po⟩ := by
  unfold upsertPay
  by_cases hany : rows.any (payPred c y m) = true
  · rw [if_pos (by exact hany)]
    exact find_map_replace c y m _ (payPred_mk c y m pd po) rows hany
  · rw [if_neg (by exact hany)]
    exact find_append_single c y m _ (payPred_mk c y m pd po) rows
      (Bool.of_not_eq_true hany)

/-! ### Claim theorems -/

/-- C5 — Unpaid months never carry a paid-on date: for every state, client,
year and month, after `set_monthly_payment` with `paid = false` and any
`paid_on` argument, `get_monthly_payment` returns `paid = 0` and
`paid_on = none`: the stored date is forced to absent whenever `paid` is
false. -/
theorem c5_unpaid_clears_paid_on (db : DB) (client : String) (year month : Nat)
    (paid_on : Option PDate) :
    get_monthly_payment (set_monthly_payment db client year month false paid_on)
      client year month = { paid := 0, paid_on := none } := by
  unfold get_monthly_payment set_monthly_payment
  rw [show (match false, paid_on with
      | true, some d => some (isoDate d)
      | _, _ => none : Option String) = none from by cases paid_on <;> rfl]
  rw [find_upsert db.payments (normalize_client client) year month false none]
  rfl

/-- C9 — Marking a month paid with no paid-on date stores `paid = true` and
`paid_on` absent: the upsert does not fail and does not invent a date, and a
subsequent get returns the paid flag with no date. -/
theorem c9_upsert_paid_without_date (db : DB) (client : String) (year month : Nat) :
    get_monthly_payment (set_monthly_payment db client year month true none)
      client year month = { paid := 1, paid_on := none } := by
  unfold get_monthly_payment set_monthly_payment
  rw [find_upsert db.payments (normalize_client client) year month true none]
  rfl

/-- C10 — Frame property of session deletion: `delete_session` keeps every
session with a different id (as a sublist, order preserved), keeps the
payment ledger and the id sequence unchanged, and is the identity when no
session has the deleted id. -/
theorem c10_delete_session_frame (db : DB) (row_id : Nat) :
    (delete_session db row_id).payments = db.payments ∧
    (delete_session db row_id).nextId = db.nextId ∧
    (∀ s : Session, s ∈ (delete_session db row_id).sessions ↔
      (s ∈ db.sessions ∧ s.id ≠ row_id)) ∧
    List.Sublist (delete_session db row_id).sessions db.sessions ∧
    ((∀ s ∈ db.sessions, s.id ≠ row_id) → delete_session db row_id = db) := by
  refine ⟨rfl, rfl, ?_, ?_, ?_⟩
  · intro s
    show s ∈ db.sessions.filter (fun s => decide (s.id ≠ row_id)) ↔ _
    rw [List.mem_filter]
    simp
  · exact List.filter_sublist _
  · intro h
    cases db with
    | mk ss ps n =>
      show DB.mk (ss.filter (fun s => decide (s.id ≠ row_id))) ps n = DB.mk ss ps n
      congr 1
      refine List.filter_eq_self.mpr ?_
      intro a ha
      exact decide_eq_true (h a ha)

/-- C3 (amended) — The session-store add operation performs no validation:
for every input, including a negative amount or a client that normalizes to
the empty string, it appends exactly one row holding the normalized client,
the timestamp and the given amount, and leaves the ledger and the other
sessions unchanged.  No error path exists in the source. -/
theorem c3_add_session_inserts_unvalidated (db : DB) (client : String)
    (ts : DT) (amount : ℚ) :
    (add_session db client ts amount).sessions =
      db.sessions ++ [{ id := db.nextId, client := normalize_client client,
                        ts := ts, amount := amount }] ∧
    (add_session db client ts amount).payments = db.payments ∧
    (add_session db client ts amount).sessions.length = db.sessions.length + 1 := by
  refine ⟨rfl, rfl, ?_⟩
  show (db.sessions ++ [_]).length = _
  rw [List.length_append]
  rfl

/-- C3 (counterexample to the claim as stated) — the claim says add fails
with a `ValidationError` and performs no write when the amount is negative or
the client normalizes to empty; in the code the add on a whitespace-only
client and amount `-5` succeeds and writes the row. -/
theorem c3_add_session_invalid_write_cex :
    normalize_client "  " = "" ∧
    (-5 : ℚ) < 0 ∧
    dbEmpty.sessions = [] ∧
    (add_session dbEmpty "  " tsMarch (-5)).sessions =
      [{ id := 0, client := "", ts := tsMarch, amount := -5 }] := by
  refine ⟨by decide, by norm_num, rfl, by decide⟩

/-- C4 (amended) — `normalize_client` equals the spec's reference definition
once per-token capitalization is read as Python title-casing: split on
whitespace runs, rejoin with single spaces, and in each token uppercase a
cased letter that follows a non-cased character (or starts the token) and
lowercase cased letters that follow cased letters; absent/empty input yields
the empty string and the function never fails. -/
theorem c4_normalize_matches_python_title (raw : String) :
    normalize_client raw = normTitleSpec raw := by
  rw [normalize_client_eq_join]
  unfold normTitleSpec
  split
  · next h =>
    subst h
    rfl
  · rfl

/-- C4 (counterexample to the claim as stated) — the claim's reference
capitalizes only the first character of each whitespace-delimited token, with
no capitalization after interior non-letters; the code's Python `str.title()`
uppercases after the hyphen, so the two differ on `"ana-maria"`. -/
theorem c4_normalize_hyphen_cex :
    normalize_client "ana-maria" = "Ana-Maria" ∧
    normCapSpec "ana-maria" = "Ana-maria" ∧
    ¬(normalize_client "ana-maria" = normCapSpec "ana-maria") := by
  refine ⟨by decide, by decide, by decide⟩

/-- C8 — Money formatting rounds to whole units and groups thousands with a
period: both `29999.6` and `30000.4` render as `"$30.000"`, and for every
amount the formatted text never contains a comma (the comma grouping is
rewritten to periods). -/
theorem c8_fmt_money_rounding_grouping :
    fmt_money (29999.6 : ℚ) = "$30.000" ∧
    fmt_money (30000.4 : ℚ) = "$30.000" ∧
    ∀ x : ℚ, ',' ∉ (fmt_money x).data := by
  refine ⟨?_, ?_, ?_⟩
  · rw [show (29999.6 : ℚ) = Rat.divInt 299996 10 from by
      rw [Rat.divInt_eq_div]; norm_num]
    decide
  · rw [show (30000.4 : ℚ) = Rat.divInt 300004 10 from by
      rw [Rat.divInt_eq_div]; norm_num]
    decide
  · intro x hx
    unfold fmt_money replaceCommaDot at hx
    rcases List.mem_map.mp hx with ⟨c, _, hc⟩
    by_cases h : c = ','
    · rw [if_pos h] at hc
      exact absurd hc (by decide)
    · rw [if_neg h] at hc
      exact h hc

/-- C1 (code evaluation at the failing input) — the displayed history is
sorted by the localized label text, not by the numeric `(year, month)` key:
with sessions in January 2025 (`"Enero 2025"`) and April 2025
(`"Abril 2025"`), the April row comes first because `"Abril"` sorts before
`"Enero"` alphabetically, although `(2025, 1) < (2025, 4)`.  This exhibits
the latent bug the spec flags: the row for the later month precedes the row
for the earlier month. -/
theorem c1_history_sorts_by_label_text :
    month_label_es 2025 1 = "Enero 2025" ∧
    month_label_es 2025 4 = "Abril 2025" ∧
    hist_view dbC1 "Ana" =
      [ { mesTexto := "Abril 2025", clases := 1, monto := "$30.000",
          estado := "Pendiente", fechaPago := "—" },
        { mesTexto := "Enero 2025", clases := 1, monto := "$30.000",
          estado := "Pendiente", fechaPago := "—" } ] := by
  refine ⟨by decide, by decide, by decide⟩

/-- C7 — The normalizer is idempotent and produces canonical spacing: for
every raw string, normalizing twice equals normalizing once, and the result
has no two consecutive spaces, no leading space and no trailing space. -/
theorem c7_normalize_idempotent_canonical_spacing (s : String) :
    normalize_client (normalize_client s) = normalize_client s ∧
    List.Chain' noSpacePair (normalize_client s).data ∧
    (normalize_client s).data.head? ≠ some ' ' ∧
    (normalize_client s).data.getLast? ≠ some ' ' := by
  by_cases hs : s = ""
  · subst hs
    refine ⟨rfl, ?_, ?_, ?_⟩ <;> simp [normalize_client]
  · have hN : normalize_client s = ⟨joinCh ' ' ((splitWs s.data).map pyTitleL)⟩ := by
      rw [normalize_client_eq_join, if_neg hs]
    have h2 : ∀ t ∈ (splitWs s.data).map pyTitleL, t ≠ [] ∧ ∀ c ∈ t, wsCh c = false :=
      splitWs_map_pyTitle_tokens s.data
    have hsp : ∀ t ∈ (splitWs s.data).map pyTitleL, t ≠ [] ∧ ∀ c ∈ t, c ≠ ' ' := by
      intro t ht
      rcases h2 t ht with ⟨hne, hws⟩
      exact ⟨hne, fun c hc => ne_space_of_wsFree (hws c hc)⟩
    refine ⟨?_, ?_, ?_, ?_⟩
    · rw [hN]
      by_cases hR : (⟨joinCh ' ' ((splitWs s.data).map pyTitleL)⟩ : String) = ""
      · rw [hR]
        rfl
      · rw [normalize_client_eq_join, if_neg hR]
        show (⟨joinCh ' '
          ((splitWs (joinCh ' ' ((splitWs s.data).map pyTitleL))).map pyTitleL)⟩ : String) = _
        rw [splitWs_joinCh _ h2, List.map_map,
          show pyTitleL ∘ pyTitleL = pyTitleL from funext fun t => pyTitleAux_idem t false]
    · rw [hN]
      exact joinCh_chain hsp
    · rw [hN]
      exact joinCh_head_ne_space hsp
    · rw [hN]
      exact joinCh_getLast_ne_space hsp

/-- Sanity check: the explicit rational fold agrees with the library sum. -/
theorem sumQ_eq_sum : ∀ l : List ℚ, sumQ l = l.sum
  | [] => rfl
  | [x] => by simp [sumQ]
  | x :: y :: xs => by
    rw [show sumQ (x :: y :: xs) = x + sumQ (y :: xs) from rfl,
      sumQ_eq_sum (y :: xs)]
    simp

/-! ### Lemmas for the history merge (C2) -/

theorem payMatch_eq (a : AggRow) (p : PayRow) :
    payMatch a p = decide (payKey p = (a.cliente, a.anio, a.mes)) := by
  unfold payMatch payKey
  exact decide_eq_decide.mpr (by simp [Prod.ext_iff])

theorem filter_key_len_le_one {β κ : Type} [DecidableEq κ] (f : β → κ) :
    ∀ rows : List β, (rows.map f).Nodup → ∀ k : κ,
      (rows.filter (fun p => decide (f p = k))).length ≤ 1 := by
  intro rows
  induction rows with
  | nil => intro _ k; simp
  | cons p ps ih =>
    intro hnd k
    rw [List.map_cons, List.nodup_cons] at hnd
    rcases hnd with ⟨hnotin, hnd⟩
    have hzero : f p = k → ps.filter (fun q => decide (f q = k)) = [] := by
      intro hp
      rw [List.filter_eq_nil_iff]
      intro q hq hqk
      apply hnotin
      rw [decide_eq_true_eq] at hqk
      rw [show f p = f q from by rw [hp, hqk]]
      exact List.mem_map_of_mem f hq
    by_cases hp : f p = k
    · rw [List.filter_cons, if_pos (decide_eq_true hp), hzero hp]
      simp
    · rw [List.filter_cons, if_neg (by simpa using hp)]
      exact ih hnd k

theorem joinOne_pend {db : DB} {a : AggRow}
    (h : db.payments.filter (payMatch a) = []) : joinOne db a = pendRow a := by
  unfold joinOne
  rw [h]

theorem joinOne_fields (db : DB) (a : AggRow) :
    (joinOne db a).cliente = a.cliente ∧ (joinOne db a).anio = a.anio ∧
      (joinOne db a).mes = a.mes := by
  unfold joinOne
  cases db.payments.filter (payMatch a) with
  | nil => exact ⟨rfl, rfl, rfl⟩
  | cons p ps => exact ⟨rfl, rfl, rfl⟩

/-- Under a duplicate-free ledger, the left-merge emits exactly one row per
aggregate row. -/
theorem join_eq_map (db : DB) (agg : List AggRow)
    (h : (db.payments.map payKey).Nodup) :
    join_with_payments db agg = agg.map (joinOne db) := by
  unfold join_with_payments
  by_cases hagg : agg.isEmpty
  · rw [if_pos hagg, List.isEmpty_iff.mp hagg]
    rfl
  · rw [if_neg hagg]
    by_cases hpe : db.payments.isEmpty
    · rw [if_pos hpe]
      refine List.map_congr_left ?_
      intro a _
      refine (joinOne_pend ?_).symm
      rw [List.isEmpty_iff.mp hpe]
      rfl
    · rw [if_neg hpe]
      clear hagg
      induction agg with
      | nil => rfl
      | cons a as ih =>
        rw [List.flatMap_cons, List.map_cons, ← ih]
        have hlen : (db.payments.filter (payMatch a)).length ≤ 1 := by
          rw [List.filter_congr (fun p _ => payMatch_eq a p)]
          exact filter_key_len_le_one payKey db.payments h (a.cliente, a.anio, a.mes)
        cases hf : db.payments.filter (payMatch a) with
        | nil =>
          rw [joinOne_pend hf]
          rfl
        | cons p rest =>
          have hrest : rest = [] := by
            rw [hf] at hlen
            exact List.length_eq_zero.mp (by simpa using hlen)
          subst hrest
          rw [show joinOne db a = paidRow a p from by unfold joinOne; rw [hf]]
          rfl

theorem mem_aggKeys_iff (db : DB) (c : String) (k : String × Nat × Nat) :
    k ∈ aggKeys db (some c) ↔
      ∃ s ∈ db.sessions, normalize_client s.client = normalize_client c ∧
        (normalize_client s.client, s.ts.year, s.ts.month) = k := by
  unfold aggKeys aggRowsSrc
  rw [List.mem_dedup, List.mem_map]
  constructor
  · rintro ⟨r, hr, hrk⟩
    rw [List.mem_filter] at hr
    rcases hr with ⟨hr0, hrc⟩
    rw [decide_eq_true_eq] at hrc
    rcases List.mem_map.mp hr0 with ⟨s, hs, hsr⟩
    refine ⟨s, hs, ?_, ?_⟩
    · rw [show normalize_client s.client = r.1 from by rw [← hsr]]
      exact hrc
    · rw [← hrk, ← hsr]
      rfl
  · rintro ⟨s, hs, hcc, hsk⟩
    refine ⟨(normalize_client s.client, s.ts, s.amount), ?_, ?_⟩
    · rw [List.mem_filter]
      exact ⟨List.mem_map_of_mem _ hs, decide_eq_true hcc⟩
    · rw [← hsk]
      rfl

theorem aggKeys_fst (db : DB) (c : String) (k : String × Nat × Nat)
    (hk : k ∈ aggKeys db (some c)) : k.1 = normalize_client c := by
  rcases (mem_aggKeys_iff db c k).mp hk with ⟨s, _, hcc, hsk⟩
  rw [← hsk]
  exact hcc

/-- C2 — History merge completeness, exclusion and default filling: when the
ledger has no duplicate `(client, year, month)` keys, the per-client history
has exactly one row per `(year, month)` (the projected key list is
duplicate-free), a `(year, month)` appears iff the client has at least one
session in that month (so ledger rows for month with zero sessions produce no
row, and rows appear whether or not a ledger row exists), and a history row
with no matching ledger row shows status `"Pendiente"` and the em-dash
placeholder in the paid-on column. -/
theorem c2_history_merge (db : DB) (c : String)
    (hpays : (db.payments.map payKey).Nodup) :
    ((histJoined db c).map (fun r => (r.anio, r.mes))).Nodup ∧
    (∀ y m : Nat, ((y, m) ∈ (histJoined db c).map (fun r => (r.anio, r.mes)) ↔
      ∃ s ∈ db.sessions, normalize_client s.client = normalize_client c ∧
        s.ts.year = y ∧ s.ts.month = m)) ∧
    (∀ r ∈ histJoined db c,
      (∀ p ∈ db.payments, ¬(normalize_client p.client = r.cliente ∧
        p.year = r.anio ∧ p.month = r.mes)) →
      r.estado = "Pendiente" ∧ r.fechaPago = "—") := by
  have hJ : histJoined db c = (sessions_agg_by_client_month db (some c)).map (joinOne db) :=
    join_eq_map db _ hpays
  have hpairs : (histJoined db c).map (fun r => (r.anio, r.mes)) =
      (sortLe keyLe (aggKeys db (some c))).map (fun k => (k.2.1, k.2.2)) := by
    rw [hJ]
    unfold sessions_agg_by_client_month
    rw [List.map_map, List.map_map]
    refine List.map_congr_left ?_
    intro k hk
    rcases joinOne_fields db (mkAggRow (aggRowsSrc db (some c)) k) with ⟨h1, h2, h3⟩
    show ((joinOne db (mkAggRow (aggRowsSrc db (some c)) k)).anio,
      (joinOne db (mkAggRow (aggRowsSrc db (some c)) k)).mes) = _
    rw [h2, h3]
    rfl
  refine ⟨?_, ?_, ?_⟩
  · rw [hpairs]
    refine List.Nodup.map_on ?_ (nodup_sortLe keyLe (List.nodup_dedup _))
    intro x hx y hy hxy
    have hx1 := aggKeys_fst db c x ((mem_sortLe _ _ x).mp hx)
    have hy1 := aggKeys_fst db c y ((mem_sortLe _ _ y).mp hy)
    rcases x with ⟨x1, x2, x3⟩
    rcases y with ⟨y1, y2, y3⟩
    simp only [Prod.mk.injEq] at hxy ⊢
    exact ⟨hx1.trans hy1.symm, hxy⟩
  · intro y m
    rw [hpairs, List.mem_map]
    constructor
    · rintro ⟨k, hk, hkym⟩
      rcases (mem_aggKeys_iff db c k).mp ((mem_sortLe _ _ k).mp hk) with ⟨s, hs, hcc, hsk⟩
      rcases k with ⟨k1, k2, k3⟩
      simp only [Prod.mk.injEq] at hsk hkym
      exact ⟨s, hs, hcc, hsk.2.1.trans hkym.1, hsk.2.2.trans hkym.2⟩
    · rintro ⟨s, hs, hcc, hy, hm⟩
      refine ⟨(normalize_client s.client, s.ts.year, s.ts.month), ?_, ?_⟩
      · exact (mem_sortLe _ _ _).mpr ((mem_aggKeys_iff db c _).mpr ⟨s, hs, hcc, rfl⟩)
      · simp only [Prod.mk.injEq]
        exact ⟨hy, hm⟩
  · intro r hr hno
    rw [hJ] at hr
    rcases List.mem_map.mp hr with ⟨a, ha, hra⟩
    subst hra
    rcases joinOne_fields db a with ⟨h1, h2, h3⟩
    have hfil : db.payments.filter (payMatch a) = [] := by
      rw [List.filter_eq_nil_iff]
      intro p hp hmatch
      unfold payMatch at hmatch
      rw [decide_eq_true_eq] at hmatch
      refine hno p hp ?_
      rw [h1, h2, h3]
      exact hmatch
    rw [joinOne_pend hfil]
    exact ⟨rfl, rfl⟩

/-! ### Lemmas for the session range query (C6) -/

theorem mem_fetch (db : DB) (a b : DT) (t : Session) :
    t ∈ fetch_sessions_between db a b ↔
      ∃ s0, s0 ∈ db.sessions ∧ normSess s0 = t ∧
        tsKey a ≤ tsKey s0.ts ∧ tsKey s0.ts < tsKey b := by
  unfold fetch_sessions_between
  rw [List.mem_map]
  constructor
  · rintro ⟨s0, hs0, hst⟩
    have hs0' := (mem_sortLe _ _ s0).mp hs0
    rw [List.mem_filter] at hs0'
    rcases hs0' with ⟨hmem, hcond⟩
    rw [Bool.and_eq_true, decide_eq_true_eq, decide_eq_true_eq] at hcond
    exact ⟨s0, hmem, hst, hcond.1, hcond.2⟩
  · rintro ⟨s0, hmem, hst, h1, h2⟩
    refine ⟨s0, (mem_sortLe _ _ s0).mpr ?_, hst⟩
    rw [List.mem_filter]
    refine ⟨hmem, ?_⟩
    rw [Bool.and_eq_true, decide_eq_true_eq, decide_eq_true_eq]
    exact ⟨h1, h2⟩

theorem fetch_sorted (db : DB) (a b : DT) :
    List.Pairwise (fun u v => tsKey u.ts ≤ tsKey v.ts) (fetch_sessions_between db a b) := by
  unfold fetch_sessions_between
  rw [List.pairwise_map]
  refine List.Pairwise.imp ?_ (pairwise_sortLe leTs ?_ ?_ _)
  · intro u v huv
    exact of_decide_eq_true huv
  · intro x y
    rcases Nat.le_total (tsKey x.ts) (tsKey y.ts) with h | h
    · exact Or.inl (decide_eq_true h)
    · exact Or.inr (decide_eq_true h)
  · intro x y z hxy hyz
    exact decide_eq_true (Nat.le_trans (of_decide_eq_true hxy) (of_decide_eq_true hyz))

/-- For a calendar-valid timestamp, lying in the half-open window
`[month start, next month start)` is exactly having that year and month. -/
theorem month_window_iff (y m : Nat) (hm1 : 1 ≤ m) (hm2 : m ≤ 12) (t : DT)
    (hv : validDT t) :
    (tsKey (month_range y m).1 ≤ tsKey t ∧ tsKey t < tsKey (month_range y m).2) ↔
      (t.year = y ∧ t.month = m) := by
  have hv' := hv
  simp only [validDT] at hv'
  obtain ⟨h1, h2, h3, h4, h5, h6, h7⟩ := hv'
  obtain ⟨Y, M, D, hh, mi, se⟩ := t
  by_cases hm : m = 12
  · subst hm
    rw [show month_range y 12 = (⟨y, 12, 1, 0, 0, 0⟩, ⟨y + 1, 1, 1, 0, 0, 0⟩) from rfl]
    simp only [tsKey] at h1 h2 h3 h4 h5 h6 h7 ⊢
    omega
  · rw [show month_range y m = (⟨y, m, 1, 0, 0, 0⟩, ⟨y + 0, m + 1, 1, 0, 0, 0⟩) from by
      unfold month_range
      rw [if_neg hm, if_neg hm]]
    simp only [tsKey] at h1 h2 h3 h4 h5 h6 h7 ⊢
    omega

/-- C6 — `fetch_sessions_between` is half-open over `[start, end)`: a stored
session timestamped exactly at `start` is returned (given its key is below
`end`), no returned session has timestamp key reaching `end` (in particular a
session at exactly `end` is excluded), the result is ordered ascending by
timestamp, and combined with `month_range` (December rolling over to January
of `year + 1`) membership in the month window is exactly having that
`(year, month)` — so the windows partition sessions into months. -/
theorem c6_fetch_half_open_month_partition (db : DB) (s : Session)
    (hs : s ∈ db.sessions) (hv : validDT s.ts) :
    (∀ a b : DT, normSess s ∈ fetch_sessions_between db a b ↔
      (tsKey a ≤ tsKey s.ts ∧ tsKey s.ts < tsKey b)) ∧
    (∀ b : DT, tsKey s.ts < tsKey b →
      normSess s ∈ fetch_sessions_between db s.ts b) ∧
    (∀ a : DT, normSess s ∉ fetch_sessions_between db a s.ts) ∧
    (∀ a b : DT, List.Pairwise (fun u v => tsKey u.ts ≤ tsKey v.ts)
      (fetch_sessions_between db a b)) ∧
    (∀ y m : Nat, 1 ≤ m → m ≤ 12 →
      (normSess s ∈ fetch_sessions_between db (month_range y m).1 (month_range y m).2 ↔
        (s.ts.year = y ∧ s.ts.month = m))) := by
  have hmem : ∀ a b : DT, normSess s ∈ fetch_sessions_between db a b ↔
      (tsKey a ≤ tsKey s.ts ∧ tsKey s.ts < tsKey b) := by
    intro a b
    rw [mem_fetch]
    constructor
    · rintro ⟨s0, hs0, hns, hl, hr⟩
      have hts : s0.ts = s.ts := by
        have h := congrArg Session.ts hns
        simpa [normSess] using h
      rw [hts] at hl hr
      exact ⟨hl, hr⟩
    · rintro ⟨hl, hr⟩
      exact ⟨s, hs, rfl, hl, hr⟩
  refine ⟨hmem, ?_, ?_, fetch_sorted db, ?_⟩
  · intro b hb
    exact (hmem s.ts b).mpr ⟨Nat.le_refl _, hb⟩
  · intro a hin
    rcases (hmem a s.ts).mp hin with ⟨_, hlt⟩
    exact Nat.lt_irrefl _ hlt
  · intro y m hm1 hm2
    rw [hmem]
    exact month_window_iff y m hm1 hm2 s.ts hv

/-- C2 at a concrete state: the duplicate-free-ledger hypothesis is
discharged by evaluation. -/
theorem c2_history_merge_witness :
    ((histJoined dbC2 "Ana").map (fun r => (r.anio, r.mes))).Nodup ∧
    (∀ y m : Nat, ((y, m) ∈ (histJoined dbC2 "Ana").map (fun r => (r.anio, r.mes)) ↔
      ∃ s ∈ dbC2.sessions, normalize_client s.client = normalize_client "Ana" ∧
        s.ts.year = y ∧ s.ts.month = m)) ∧
    (∀ r ∈ histJoined dbC2 "Ana",
      (∀ p ∈ dbC2.payments, ¬(normalize_client p.client = r.cliente ∧
        p.year = r.anio ∧ p.month = r.mes)) →
      r.estado = "Pendiente" ∧ r.fechaPago = "—") :=
  c2_history_merge dbC2 "Ana" (by decide)

/-- C6 at a concrete state: a session at exactly the first instant of
March 2025 is returned by the March window query. -/
theorem c6_fetch_half_open_month_partition_witness :
    normSess sessC6 ∈
      fetch_sessions_between dbC6 (month_range 2025 3).1 (month_range 2025 3).2 := by
  have h := c6_fetch_half_open_month_partition dbC6 sessC6 (by decide)
    (by unfold validDT; decide)
  exact (h.2.2.2.2 2025 3 (by decide) (by decide)).mpr ⟨rfl, rfl⟩
